import Mathlib

/-!
# Verification of the `bitstruct` bit-level codec

Shallow embedding of `src/bitstruct.py`, a bit-level binary packer/unpacker.

Conventions of the embedding:

* A Python bit string (a `str` of `'0'`/`'1'` characters) is a `List Bool`
  (`true` = `'1'`), left-to-right (most significant bit first).
* A Python `bytearray` is a `List Nat` whose elements are byte values.
* Fallible Python operations (exceptions: `ValueError`, `TypeError`,
  `IndexError`, `struct.error`) are modelled as `Option`; any raised
  exception is `none`.
* The only endianness targets produced by the format parser or passed to
  `translate_endianness` inside the library are `'<'` and `'>'`; they are
  embedded as the inductive `Endianness` (`lt` = `'<'`, `lsb` first;
  `gt` = `'>'`, `msb` first).  Passing any other character raises in
  Python and never occurs inside the library, so it is outside the model.
* Python `'{:0Nb}'.format(v)` renders `v` in binary with at least `N`
  digits (more when `v` needs them); this is `formatBin` below.
* IEEE-754 floats only pass through the codec as their bit patterns:
  `struct.pack('>f'/'<f'/'>d'/'<d', x)` serializes the pattern of `x` into
  4 or 8 bytes, and `struct.unpack` inverts this exactly.  The embedding
  therefore represents a float value by its IEEE-754 bit pattern (a `Nat`)
  and models `struct.pack`/`struct.unpack` as the (big- or little-endian)
  byte serialization of that pattern; no arithmetic on float values is
  performed anywhere in the library.
* Recursions that Python performs with loops or with division are written
  with an explicit fuel argument (always instantiated so the fuel is
  sufficient) so that every definition is structurally recursive and
  evaluates by kernel reduction.
-/

namespace Bitstruct

/-- The two byte-order targets: `lt` is `'<'` (LSB first), `gt` is `'>'`
(MSB first). -/
inductive Endianness where
  | lt
  | gt
deriving DecidableEq, Repr

/-- Model of `int(bits, 2)` on a nonempty bit string; on the empty string Python
raises, which callers model separately. -/
def bitsToNat (bs : List Bool) : Nat :=
  bs.foldl (fun a b => 2 * a + (if b then 1 else 0)) 0

/-- Binary digits of `n`, MSB first, no leading zeros (empty for `0`);
fuel-driven form of the division recursion of `'{:b}'.format`. -/
def natBitsAux : Nat → Nat → List Bool
  | 0, _ => []
  | fuel + 1, n =>
    if n = 0 then [] else natBitsAux fuel (n / 2) ++ [n % 2 == 1]

def natBits (n : Nat) : List Bool := natBitsAux n n

/-- Model of `'{:b}'.format(n)`: binary digits of `n`, MSB first, `"0"` for zero. -/
def natToBinDigits (n : Nat) : List Bool :=
  if n = 0 then [false] else natBits n

/-- Model of `'{:0{size}b}'.format(n)`: binary digits of `n` left-padded with zeros
to at least `size` digits (longer when `n ≥ 2 ^ size`). -/
def formatBin (size n : Nat) : List Bool :=
  List.replicate (size - (natToBinDigits n).length) false ++ natToBinDigits n

/-- The chunk sizes used by `translate_endianness`: `len / bw` groups of
`bw` bits, preceded by one group of `len % bw` bits when the length is not
a multiple of `bw`. -/
def chunkSizes (len bw : Nat) : List Nat :=
  let sizes := List.replicate (len / bw) bw
  if len % bw > 0 then (len % bw) :: sizes else sizes

/-- Split a bit string into chunks of the given sizes taken from the
front (`chunk = bits[:size]; bits = bits[size:]`). -/
def splitFront : List Nat → List Bool → List (List Bool)
  | [], _ => []
  | s :: ss, bits => bits.take s :: splitFront ss (bits.drop s)

/-- Split a bit string into chunks of the given sizes taken from the back
(`chunk = bits[-size:]; bits = bits[:-size]`), listed in the order they
are taken. -/
def splitBack : List Nat → List Bool → List (List Bool)
  | [], _ => []
  | s :: ss, bits =>
    bits.drop (bits.length - s) :: splitBack ss (bits.take (bits.length - s))

/-- Model of `translate_endianness(bitstring, target, byte_width=8)`: regroup a bit
string into `byte_width`-sized chunks (one short leading chunk when the
length is not a multiple) and reorder the chunks according to the target
byte order.  For `'<'` the chunks are taken from the front and prepended
(reversing the chunk order); for `'>'` they are taken from the back and
appended. -/
def translate_endianness (bits : List Bool) (target : Endianness)
    (bw : Nat := 8) : List Bool :=
  match target with
  | .lt => ((splitFront (chunkSizes bits.length bw) bits).reverse).flatten
  | .gt => (splitBack (chunkSizes bits.length bw) bits).flatten

/-- Model of `_pack_integer(size, arg, target)`: two's-complement a negative
argument by adding `1 << size`, render in binary padded to `size` digits,
and translate for an LSB-first target.  An argument below `-(2 ^ size)`
makes Python emit a `'-'` character into the bit string (corrupting it
downstream); that is modelled as `none`. -/
def _pack_integer (size : Nat) (arg : Int) (target : Endianness := .gt) :
    Option (List Bool) :=
  let arg2 : Int := if arg < 0 then (2 ^ size : Int) + arg else arg
  if arg2 < 0 then none
  else
    let bits := formatBin size arg2.toNat
    some (match target with
          | .lt => translate_endianness bits .lt
          | .gt => bits)

/-- Model of `_pack_boolean(size, arg)`: `int(arg)` packed as an unsigned integer
with the default (MSB-first) target. -/
def _pack_boolean (size : Nat) (arg : Bool) : Option (List Bool) :=
  _pack_integer size (if arg then 1 else 0)

/-- Model of `_pack_bytearray(size, arg, target)`: 8 bits per byte, MSB first,
truncated to the first `size` bits, translated for an LSB-first target. -/
def _pack_bytearray (size : Nat) (arg : List Nat)
    (target : Endianness := .gt) : List Bool :=
  let bits := ((arg.map (formatBin 8)).flatten).take size
  match target with
  | .lt => translate_endianness bits .lt
  | .gt => bits

/-- Big-endian byte serialization of `w` into `n` bytes (the byte string
`struct.pack('>f'/' >d', x)` produces for a float with bit pattern `w`). -/
def natToBytesBE : Nat → Nat → List Nat
  | 0, _ => []
  | n + 1, w => natToBytesBE n (w / 256) ++ [w % 256]

/-- Big-endian byte deserialization, inverse of `natToBytesBE`. -/
def bytesToNatBE (bs : List Nat) : Nat :=
  bs.foldl (fun a b => 256 * a + b) 0

/-- Model of `_pack_float(size, arg, target)`: `struct.pack(target + 'f'/'d', arg)`
(modelled as the byte serialization of the float's IEEE-754 bit pattern
`w` in the target byte order) followed by `_pack_bytearray` with the same
target; any size other than 32 or 64 raises. -/
def _pack_float (size : Nat) (w : Nat) (target : Endianness := .gt) :
    Option (List Bool) :=
  if size = 32 ∨ size = 64 then
    let bytes := natToBytesBE (size / 8) w
    let bytes := match target with
                 | .gt => bytes
                 | .lt => bytes.reverse
    some (_pack_bytearray size bytes target)
  else none

/-- Model of `_unpack_integer(_type, bits, endianness)`: translate an LSB-first
slice back to MSB-first, read it with `int(bits, 2)` (which raises on an
empty string), and for `'s'` subtract `1 << len(bits)` when the leading
translated bit is set. -/
def _unpack_integer (ty : Char) (bits : List Bool)
    (endianness : Endianness := .gt) : Option Int :=
  let bits := match endianness with
              | .lt => translate_endianness bits .gt
              | .gt => bits
  match bits with
  | [] => none
  | b :: rest =>
    let value : Int := (bitsToNat (b :: rest) : Nat)
    some (if ty = 's' ∧ b then value - 2 ^ (b :: rest).length else value)

/-- Model of `_unpack_boolean(bits)`: unsigned decode with default (MSB-first)
endianness, coerced with `bool(value)`. -/
def _unpack_boolean (bits : List Bool) : Option Bool :=
  (_unpack_integer 'u' bits).map (fun v => v ≠ 0)

/-- The loop `for i in range(count): value.append(int(bits[8*i:8*i+8], 2))`;
`none` when a requested chunk is empty (Python's `int('', 2)` raises). -/
def parseByteChunks : Nat → List Bool → Option (List Nat)
  | 0, _ => some []
  | n + 1, bits =>
    if bits.isEmpty then none
    else do
      let rest ← parseByteChunks n (bits.drop 8)
      some (bitsToNat (bits.take 8) :: rest)

/-- Model of `_unpack_bytearray(size, bits, endianness)`: translate an LSB-first
slice, emit `size / 8` whole bytes, and when `size % 8 = rest > 0` one
extra byte `int(bits[size-rest:], 2) << (8-rest)`. -/
def _unpack_bytearray (size : Nat) (bits : List Bool)
    (endianness : Endianness := .gt) : Option (List Nat) := do
  let bits := match endianness with
              | .lt => translate_endianness bits .lt
              | .gt => bits
  let whole ← parseByteChunks (size / 8) bits
  let rest := size % 8
  if rest > 0 then
    let tail := bits.drop (size - rest)
    if tail.isEmpty then none
    else some (whole ++ [bitsToNat tail * 2 ^ (8 - rest)])
  else some whole

/-- Model of `_unpack_float(size, bits, endianness)`: raw byte decode followed by
`struct.unpack(endianness + 'f'/'d', packed)`, modelled as byte
deserialization back to the IEEE-754 bit pattern; `struct.unpack` requires
exactly `size / 8` bytes, and any size other than 32 or 64 raises. -/
def _unpack_float (size : Nat) (bits : List Bool)
    (endianness : Endianness := .gt) : Option Nat := do
  let packed ← _unpack_bytearray size bits endianness
  if size = 32 ∨ size = 64 then
    if packed.length = size / 8 then
      some (bytesToNatBE (match endianness with
                          | .gt => packed
                          | .lt => packed.reverse))
    else none
  else none

/-- One compiled field: type letter, bit width, resolved endianness
(the triples `(info[1], int(info[2]), endianness)` built by
`_parse_format`). -/
structure Token where
  ty : Char
  size : Nat
  endianness : Endianness
deriving DecidableEq, Repr

/-- One raw match of the regex `([<>]?)([a-zA-Z])(\d+)` before the
endianness carry-forward pass. -/
structure RawTok where
  mark : Option Endianness
  ty : Char
  width : Nat
deriving DecidableEq, Repr

/-- Maximal leading run of decimal digits (`\d+` greediness). -/
def takeDigits : List Char → List Char × List Char
  | [] => ([], [])
  | c :: rest =>
    if c.isDigit then
      let p := takeDigits rest
      (c :: p.1, p.2)
    else ([], c :: rest)

def digitVal (c : Char) : Nat := c.toNat - '0'.toNat

/-- Model of `int(ds)` on a nonempty decimal digit string. -/
def digitsToNat (ds : List Char) : Nat :=
  ds.foldl (fun a c => 10 * a + digitVal c) 0

/-- Model of `re.findall(r'([<>]?)([a-zA-Z])(\d+)', fmt)`: leftmost non-overlapping
matches; a position where no match starts is skipped.  After an unmatched
`'<'`/`'>'` the scan resumes at the next character (the optional group
backtracks to empty and `[a-zA-Z]` cannot match the marker itself).
Python's `\d` also accepts non-ASCII decimal digits; those never occur in
descriptors and are outside the model.  Fuel-driven: each step consumes at
least one character, so `cs.length` fuel suffices. -/
def scanAux : Nat → List Char → List RawTok
  | 0, _ => []
  | fuel + 1, cs =>
    match cs with
    | [] => []
    | c :: rest =>
      if c = '<' ∨ c = '>' then
        match rest with
        | [] => []
        | d :: rest2 =>
          if d.isAlpha then
            match takeDigits rest2 with
            | ([], _) => scanAux fuel rest
            | (ds, rest3) =>
              ⟨some (if c = '<' then .lt else .gt), d, digitsToNat ds⟩ ::
                scanAux fuel rest3
          else scanAux fuel rest
      else if c.isAlpha then
        match takeDigits rest with
        | ([], _) => scanAux fuel rest
        | (ds, rest2) => ⟨none, c, digitsToNat ds⟩ :: scanAux fuel rest2
      else scanAux fuel rest

def scanFormat (cs : List Char) : List RawTok := scanAux cs.length cs

/-- The carry-forward pass of `_parse_format`: an explicit marker resets
the running endianness, which every following markerless field inherits;
the accumulator starts at `'>'`. -/
def resolveTokens : List RawTok → Endianness → List Token
  | [], _ => []
  | r :: rest, e =>
    let e2 := r.mark.getD e
    ⟨r.ty, r.width, e2⟩ :: resolveTokens rest e2

/-- Model of `_parse_format(fmt)` on a format string (the `isinstance(fmt, list)`
passthrough is the `List Token` entry points below). -/
def _parse_format (fmt : String) : List Token :=
  resolveTokens (scanFormat fmt.data) .gt

/-- A value in the argument tuple of `pack` / result tuple of `unpack`.
A float is represented by its IEEE-754 bit pattern. -/
inductive Value where
  | int (n : Int)
  | bool (b : Bool)
  | float (w : Nat)
  | raw (bs : List Nat)
deriving DecidableEq, Repr

/-- The per-field dispatch in the body of `pack`: `'u'`/`'s'` call
`_pack_integer` with the field's endianness, `'f'` calls `_pack_float`,
`'b'` calls `_pack_boolean` (no endianness argument), `'r'` calls
`_pack_bytearray`, and any other letter raises `ValueError`.  A value of
the wrong Python type raises (`TypeError`); since `bool` is an `int`
subclass in Python, an integer is accepted where a boolean is and vice
versa. -/
def packFieldBits (t : Token) (v : Value) : Option (List Bool) :=
  if t.ty = 'u' ∨ t.ty = 's' then
    match v with
    | .int n => _pack_integer t.size n t.endianness
    | .bool b => _pack_integer t.size (if b then 1 else 0) t.endianness
    | _ => none
  else if t.ty = 'f' then
    match v with
    | .float w => _pack_float t.size w t.endianness
    | _ => none
  else if t.ty = 'b' then
    match v with
    | .bool b => _pack_boolean t.size b
    | .int n => _pack_integer t.size n
    | _ => none
  else if t.ty = 'r' then
    match v with
    | .raw bs => some (_pack_bytearray t.size bs t.endianness)
    | _ => none
  else none

/-- The field loop of `pack`: a `'p'` field contributes `size * '0'` and
consumes no argument; every other field consumes the next argument
(`IndexError` when the arguments run out) and appends its encoding. -/
def packBits : List Token → List Value → Option (List Bool)
  | [], _ => some []
  | t :: ts, args =>
    if t.ty = 'p' then do
      let rest ← packBits ts args
      some (List.replicate t.size false ++ rest)
    else
      match args with
      | [] => none
      | v :: vs => do
        let b ← packFieldBits t v
        let rest ← packBits ts vs
        some (b ++ rest)

/-- The final loop of `pack`:
`bytearray([int(bits[i:i+8], 2) for i in range(0, len(bits), 8)])`.
Fuel-driven; each step consumes at least one bit. -/
def bytesOfBitsAux : Nat → List Bool → List Nat
  | 0, _ => []
  | fuel + 1, bits =>
    if bits.isEmpty then []
    else bitsToNat (bits.take 8) :: bytesOfBitsAux fuel (bits.drop 8)

def bytesOfBits (bits : List Bool) : List Nat :=
  bytesOfBitsAux bits.length bits

/-- Model of `pack` on an already-compiled field list (`_parse_format` passes a
list argument through unchanged): encode every field, pad the final bit
string with zeros to the next byte boundary, and slice into bytes. -/
def packTokens (toks : List Token) (args : List Value) :
    Option (List Nat) := do
  let bits ← packBits toks args
  let tail := bits.length % 8
  let padded := if tail ≠ 0 then bits ++ List.replicate (8 - tail) false
                else bits
  some (bytesOfBits padded)

/-- Model of `pack(fmt, *args)`. -/
def pack (fmt : String) (args : List Value) : Option (List Nat) :=
  packTokens (_parse_format fmt) args

/-- Model of `''.join(['{:08b}'.format(b) for b in data])`. -/
def bitsOfBytes (data : List Nat) : List Bool :=
  (data.map (formatBin 8)).flatten

/-- The per-field dispatch in the body of `unpack`, applied to the slice
`bits[i:i+size]`. -/
def unpackField (t : Token) (bits : List Bool) : Option Value :=
  if t.ty = 'u' ∨ t.ty = 's' then
    (_unpack_integer t.ty bits t.endianness).map .int
  else if t.ty = 'f' then
    (_unpack_float t.size bits t.endianness).map .float
  else if t.ty = 'b' then
    (_unpack_boolean bits).map .bool
  else if t.ty = 'r' then
    (_unpack_bytearray t.size bits t.endianness).map .raw
  else none

/-- The field loop of `unpack`: Python keeps an absolute bit cursor `i`
and slices `bits[i:i+size]`; this is rendered by taking the slice from the
front of the remaining bits and dropping `size` bits for the next field
(`bits[i:i+size] = (bits.drop i).take size`, and the cursor advances by
`size` even for `'p'` fields). -/
def unpackFields : List Token → List Bool → Option (List Value)
  | [], _ => some []
  | t :: ts, bits =>
    if t.ty = 'p' then unpackFields ts (bits.drop t.size)
    else do
      let v ← unpackField t (bits.take t.size)
      let rest ← unpackFields ts (bits.drop t.size)
      some (v :: rest)

/-- Model of `unpack` on an already-compiled field list. -/
def unpackTokens (toks : List Token) (data : List Nat) :
    Option (List Value) :=
  unpackFields toks (bitsOfBytes data)

/-- Model of `unpack(fmt, data)`. -/
def unpack (fmt : String) (data : List Nat) : Option (List Value) :=
  unpackTokens (_parse_format fmt) data

/-- Model of `calcsize` on an already-compiled field list: the sum of the field
widths. -/
def calcsizeTokens (toks : List Token) : Nat :=
  (toks.map Token.size).sum

/-- Model of `calcsize(fmt)`. -/
def calcsize (fmt : String) : Nat :=
  calcsizeTokens (_parse_format fmt)

/-- The loop of `byteswap`: for each group length, reverse
`data[i:i+length]` in place and advance the offset. -/
def byteswapNums : List Nat → List Nat → Nat → List Nat
  | [], data, _ => data
  | d :: ds, data, i =>
    byteswapNums ds
      (data.take i ++ ((data.drop i).take d).reverse ++ data.drop (i + d))
      (i + d)

/-- Model of `byteswap(fmt, data, offset=0)`: `fmt` is iterated character by
character and each character is parsed with `int`, which raises on a
non-digit. -/
def byteswap (fmt : String) (data : List Nat) (offset : Nat := 0) :
    Option (List Nat) :=
  if fmt.data.all Char.isDigit then
    some (byteswapNums (fmt.data.map digitVal) data offset)
  else none

/-! ## Lemmas about the endianness translator -/

theorem chunkSizes_sum (len bw : Nat) :
    (chunkSizes len bw).sum = len := by
  have h := Nat.mod_add_div len bw
  have h2 : (len / bw) * bw = bw * (len / bw) := Nat.mul_comm _ _
  unfold chunkSizes
  by_cases h0 : len % bw > 0 <;>
    simp only [h0, if_true, if_false, List.sum_cons, List.sum_replicate,
      smul_eq_mul, gt_iff_lt, not_lt] <;> omega

theorem splitFront_map_length (sizes : List Nat) (bits : List Bool)
    (h : sizes.sum ≤ bits.length) :
    (splitFront sizes bits).map List.length = sizes := by
  induction sizes generalizing bits with
  | nil => rfl
  | cons s ss ih =>
    simp only [List.sum_cons] at h
    simp only [splitFront, List.map_cons, List.length_take]
    rw [ih _ (by simp; omega)]
    congr 1
    omega

theorem splitFront_flatten (sizes : List Nat) (bits : List Bool)
    (h : sizes.sum = bits.length) :
    (splitFront sizes bits).flatten = bits := by
  induction sizes generalizing bits with
  | nil =>
    simp only [List.sum_nil] at h
    simp [splitFront, (List.length_eq_zero).mp h.symm]
  | cons s ss ih =>
    simp only [List.sum_cons] at h
    simp only [splitFront, List.flatten_cons]
    rw [ih _ (by simp; omega), List.take_append_drop]

theorem splitFront_of_flatten (L : List (List Bool)) :
    splitFront (L.map List.length) L.flatten = L := by
  induction L with
  | nil => rfl
  | cons c L ih =>
    simp only [List.map_cons, List.flatten_cons, splitFront,
      List.take_left, List.drop_left]
    exact congrArg _ ih

theorem splitBack_of_flatten_reverse (L : List (List Bool)) :
    splitBack (L.map List.length) L.reverse.flatten = L := by
  induction L with
  | nil => rfl
  | cons c L ih =>
    have hlen : (L.reverse.flatten).length = (L.map List.length).sum := by
      simp [List.length_flatten, List.sum_reverse]
    simp only [List.map_cons, List.reverse_cons, List.flatten_append,
      List.flatten_cons, List.flatten_nil, List.append_nil, splitBack]
    have h1 : (L.reverse.flatten ++ c).length - c.length
        = L.reverse.flatten.length := by simp
    rw [h1, List.drop_left, List.take_left]
    exact congrArg _ ih

theorem splitBack_map_length (sizes : List Nat) (bits : List Bool)
    (h : sizes.sum = bits.length) :
    (splitBack sizes bits).map List.length = sizes := by
  induction sizes generalizing bits with
  | nil => rfl
  | cons s ss ih =>
    simp only [List.sum_cons] at h
    simp only [splitBack, List.map_cons, List.length_drop]
    rw [ih _ (by simp [List.length_take]; omega)]
    congr 1
    omega

theorem translate_length (bits : List Bool) (e : Endianness) (bw : Nat) :
    (translate_endianness bits e bw).length = bits.length := by
  have hsum := chunkSizes_sum bits.length bw
  cases e with
  | lt =>
    simp only [translate_endianness, List.length_flatten, List.map_reverse,
      List.sum_reverse]
    rw [splitFront_map_length _ _ (le_of_eq hsum), hsum]
  | gt =>
    simp only [translate_endianness, List.length_flatten]
    rw [splitBack_map_length _ _ hsum, hsum]

/-- Core involution: translating to LSB-first and back to MSB-first
recovers the original bit string, for any byte width and any length. -/
theorem translate_lt_gt (bits : List Bool) (bw : Nat) :
    translate_endianness (translate_endianness bits .lt bw) .gt bw
      = bits := by
  have hsum := chunkSizes_sum bits.length bw
  have hmap : (splitFront (chunkSizes bits.length bw) bits).map List.length
      = chunkSizes bits.length bw :=
    splitFront_map_length _ _ (le_of_eq hsum)
  have hlen : (translate_endianness bits .lt bw).length = bits.length :=
    translate_length bits .lt bw
  show (splitBack (chunkSizes (translate_endianness bits .lt bw).length bw)
    (translate_endianness bits .lt bw)).flatten = bits
  rw [hlen]
  calc (splitBack (chunkSizes bits.length bw)
          ((splitFront (chunkSizes bits.length bw) bits).reverse.flatten)).flatten
      = (splitBack
          ((splitFront (chunkSizes bits.length bw) bits).map List.length)
          ((splitFront (chunkSizes bits.length bw)
            bits).reverse.flatten)).flatten := by rw [hmap]
    _ = (splitFront (chunkSizes bits.length bw) bits).flatten := by
          rw [splitBack_of_flatten_reverse]
    _ = bits := splitFront_flatten _ _ hsum

/-- For byte-aligned bit strings the LSB-first translation is an
involution on its own (the chunk list is a uniform `replicate`, hence
symmetric). -/
theorem translate_lt_lt (bits : List Bool) (h8 : bits.length % 8 = 0) :
    translate_endianness (translate_endianness bits .lt) .lt = bits := by
  have hsum := chunkSizes_sum bits.length 8
  have hrep : chunkSizes bits.length 8
      = List.replicate (bits.length / 8) 8 := by
    simp [chunkSizes, h8]
  have hmap : (splitFront (chunkSizes bits.length 8) bits).map List.length
      = chunkSizes bits.length 8 :=
    splitFront_map_length _ _ (le_of_eq hsum)
  have hlen : (translate_endianness bits .lt).length = bits.length :=
    translate_length bits .lt 8
  show (splitFront (chunkSizes (translate_endianness bits .lt).length 8)
    (translate_endianness bits .lt)).reverse.flatten = bits
  rw [hlen]
  have hmaprev : ((splitFront (chunkSizes bits.length 8) bits).reverse).map
      List.length = chunkSizes bits.length 8 := by
    rw [List.map_reverse, hmap, hrep, List.reverse_replicate]
  calc (splitFront (chunkSizes bits.length 8)
          ((splitFront (chunkSizes bits.length 8)
            bits).reverse.flatten)).reverse.flatten
      = (splitFront
          (((splitFront (chunkSizes bits.length 8) bits).reverse).map
            List.length)
          ((splitFront (chunkSizes bits.length 8)
            bits).reverse.flatten)).reverse.flatten := by rw [hmaprev]
    _ = (((splitFront (chunkSizes bits.length 8)
            bits).reverse).reverse).flatten := by rw [splitFront_of_flatten]
    _ = (splitFront (chunkSizes bits.length 8) bits).flatten := by
          rw [List.reverse_reverse]
    _ = bits := splitFront_flatten _ _ hsum

/-! ## Lemmas about binary rendering and parsing -/

theorem bitsToNat_go (bs : List Bool) (a : Nat) :
    bs.foldl (fun a b => 2 * a + (if b then 1 else 0)) a
      = a * 2 ^ bs.length + bitsToNat bs := by
  induction bs generalizing a with
  | nil => simp [bitsToNat]
  | cons b bs ih =>
    show bs.foldl _ (2 * a + _) = _
    rw [ih]
    show _ = a * 2 ^ (bs.length + 1)
      + List.foldl _ (2 * 0 + (if b then 1 else 0)) bs
    rw [ih]
    ring

theorem bitsToNat_cons (b : Bool) (bs : List Bool) :
    bitsToNat (b :: bs)
      = (if b then 1 else 0) * 2 ^ bs.length + bitsToNat bs := by
  show bs.foldl _ (2 * 0 + (if b then 1 else 0)) = _
  rw [bitsToNat_go]
  ring_nf

theorem bitsToNat_append (xs ys : List Bool) :
    bitsToNat (xs ++ ys) = bitsToNat xs * 2 ^ ys.length + bitsToNat ys := by
  show (xs ++ ys).foldl _ 0 = _
  rw [List.foldl_append, bitsToNat_go]
  rfl

theorem bitsToNat_lt (bs : List Bool) : bitsToNat bs < 2 ^ bs.length := by
  induction bs with
  | nil => simp [bitsToNat]
  | cons b bs ih =>
    rw [bitsToNat_cons]
    have : (2 : Nat) ^ (b :: bs).length = 2 ^ bs.length + 2 ^ bs.length := by
      simp [List.length_cons, pow_succ]; ring
    rw [this]
    by_cases hb : b <;> simp [hb] <;> omega

theorem bitsToNat_replicate_false (n : Nat) :
    bitsToNat (List.replicate n false) = 0 := by
  induction n with
  | zero => rfl
  | succ n ih => rw [List.replicate_succ, bitsToNat_cons]; simp [ih]

theorem bitsToNat_natBitsAux (fuel n : Nat) (h : n ≤ fuel) :
    bitsToNat (natBitsAux fuel n) = n := by
  induction fuel generalizing n with
  | zero => interval_cases n; rfl
  | succ fuel ih =>
    by_cases h0 : n = 0
    · simp [natBitsAux, h0, bitsToNat]
    · have hdiv : n / 2 ≤ fuel := by omega
      simp only [natBitsAux, h0, if_false, bitsToNat_append, ih _ hdiv]
      have h2 := Nat.div_add_mod n 2
      have hm : n % 2 = 0 ∨ n % 2 = 1 := by omega
      rcases hm with hm | hm <;>
        simp [hm, bitsToNat_cons, bitsToNat] <;> omega

theorem natBitsAux_length (fuel n w : Nat) (hf : n ≤ fuel)
    (hw : n < 2 ^ w) : (natBitsAux fuel n).length ≤ w := by
  induction fuel generalizing n w with
  | zero => interval_cases n; simp [natBitsAux]
  | succ fuel ih =>
    by_cases h0 : n = 0
    · simp [natBitsAux, h0]
    · have hwpos : 0 < w := by
        rcases Nat.eq_zero_or_pos w with h | h
        · subst h; simp at hw; omega
        · exact h
      have hdiv : n / 2 < 2 ^ (w - 1) := by
        have : 2 ^ (w - 1) * 2 = 2 ^ w := by
          rw [← pow_succ]; congr 1; omega
        rw [Nat.div_lt_iff_lt_mul (by norm_num)]
        omega
      simp only [natBitsAux, h0, if_false, List.length_append,
        List.length_cons, List.length_nil]
      have := ih (n / 2) (w - 1) (by omega) hdiv
      omega

theorem bitsToNat_natToBinDigits (n : Nat) :
    bitsToNat (natToBinDigits n) = n := by
  by_cases h0 : n = 0
  · simp [natToBinDigits, h0, bitsToNat]
  · simp only [natToBinDigits, h0, if_false, natBits]
    exact bitsToNat_natBitsAux n n le_rfl

theorem natToBinDigits_length_le (n w : Nat) (hw : 0 < w)
    (h : n < 2 ^ w) : (natToBinDigits n).length ≤ w := by
  by_cases h0 : n = 0
  · simp [natToBinDigits, h0]; omega
  · simp only [natToBinDigits, h0, if_false, natBits]
    exact natBitsAux_length n n w le_rfl h

theorem natToBinDigits_ne_nil (n : Nat) : natToBinDigits n ≠ [] := by
  by_cases h0 : n = 0
  · simp [natToBinDigits, h0]
  · simp only [natToBinDigits, h0, if_false, natBits]
    cases n with
    | zero => omega
    | succ m =>
      simp [natBitsAux, h0]

theorem bitsToNat_formatBin (w n : Nat) :
    bitsToNat (formatBin w n) = n := by
  unfold formatBin
  rw [bitsToNat_append, bitsToNat_replicate_false, bitsToNat_natToBinDigits]
  simp

theorem formatBin_length (w n : Nat) (hw : 0 < w) (h : n < 2 ^ w) :
    (formatBin w n).length = w := by
  unfold formatBin
  have h1 := natToBinDigits_length_le n w hw h
  simp only [List.length_append, List.length_replicate]
  omega

theorem formatBin_ne_nil (w n : Nat) : formatBin w n ≠ [] := by
  unfold formatBin
  have := natToBinDigits_ne_nil n
  intro h
  rcases List.append_eq_nil.mp h with ⟨-, h2⟩
  exact this h2

theorem bitsToNat_inj (bs₁ bs₂ : List Bool)
    (hlen : bs₁.length = bs₂.length)
    (hval : bitsToNat bs₁ = bitsToNat bs₂) : bs₁ = bs₂ := by
  induction bs₁ generalizing bs₂ with
  | nil => cases bs₂ with
    | nil => rfl
    | cons b bs => simp at hlen
  | cons b₁ t₁ ih =>
    cases bs₂ with
    | nil => simp at hlen
    | cons b₂ t₂ =>
      simp only [List.length_cons, Nat.add_right_cancel_iff] at hlen
      rw [bitsToNat_cons, bitsToNat_cons, hlen] at hval
      have hv₁ := bitsToNat_lt t₁
      have hv₂ := bitsToNat_lt t₂
      rw [hlen] at hv₁
      have hb : b₁ = b₂ := by
        by_cases h1 : b₁ <;> by_cases h2 : b₂ <;>
          simp [h1, h2] at hval ⊢ <;> omega
      subst hb
      have : bitsToNat t₁ = bitsToNat t₂ := by
        by_cases h1 : b₁ <;> simp [h1] at hval <;> omega
      rw [ih t₂ hlen this]

theorem formatBin_bitsToNat (bs : List Bool) (hne : bs ≠ []) :
    formatBin bs.length (bitsToNat bs) = bs := by
  have hlen : (formatBin bs.length (bitsToNat bs)).length = bs.length :=
    formatBin_length _ _ (List.length_pos.mpr hne) (bitsToNat_lt bs)
  exact bitsToNat_inj _ _ hlen (by rw [bitsToNat_formatBin])

/-- Evaluation of `int(bits, 2)` together with the sign correction of
`_unpack_integer`, for an MSB-first slice: the leading bit is set exactly
when the value is at least `2 ^ (len - 1)`. -/
theorem unpack_integer_gt (ty : Char) (bs : List Bool) (hne : bs ≠ []) :
    _unpack_integer ty bs .gt
      = some (if ty = 's' ∧ 2 ^ (bs.length - 1) ≤ bitsToNat bs
              then (bitsToNat bs : Int) - 2 ^ bs.length
              else (bitsToNat bs : Int)) := by
  cases bs with
  | nil => exact absurd rfl hne
  | cons b rest =>
    show some _ = some _
    congr 1
    have hv := bitsToNat_lt rest
    have hcons := bitsToNat_cons b rest
    have hb : b = true ↔ 2 ^ ((b :: rest).length - 1)
        ≤ bitsToNat (b :: rest) := by
      simp only [List.length_cons, Nat.add_sub_cancel]
      by_cases h1 : b <;> simp [h1] at hcons ⊢ <;> omega
    by_cases hs : ty = 's' <;> by_cases h1 : b <;>
      simp [hs, h1, iff_true, true_iff] at hb ⊢ <;> omega

/-! ## Claim C2 -/

/-- C2: for every bit string, of arbitrary length (including lengths that
are not a multiple of 8), translating to LSB-first (`'<'`) and then to
MSB-first (`'>'`) recovers the original bit string. -/
theorem translate_endianness_involution (bits : List Bool) :
    translate_endianness (translate_endianness bits .lt) .gt = bits :=
  translate_lt_gt bits 8

/-! ## Byte-level helper lemmas -/

theorem isEmpty_append_false (l₁ l₂ : List Bool) (h : l₁ ≠ []) :
    (l₁ ++ l₂).isEmpty = false := by
  cases l₁ with
  | nil => exact absurd rfl h
  | cons a l => rfl

theorem natToBytesBE_length (n w : Nat) : (natToBytesBE n w).length = n := by
  induction n generalizing w with
  | zero => rfl
  | succ n ih => simp [natToBytesBE, ih]

theorem natToBytesBE_lt (n w : Nat) :
    ∀ b ∈ natToBytesBE n w, b < 256 := by
  induction n generalizing w with
  | zero => simp [natToBytesBE]
  | succ n ih =>
    intro b hb
    simp only [natToBytesBE, List.mem_append, List.mem_singleton] at hb
    rcases hb with hb | hb
    · exact ih _ _ hb
    · subst hb; exact Nat.mod_lt _ (by norm_num)

theorem bytesToNatBE_go (bs : List Nat) (a : Nat) :
    bs.foldl (fun a b => 256 * a + b) a
      = a * 256 ^ bs.length + bytesToNatBE bs := by
  induction bs generalizing a with
  | nil => simp [bytesToNatBE]
  | cons b bs ih =>
    show bs.foldl _ (256 * a + b) = _
    rw [ih]
    show _ = a * 256 ^ (bs.length + 1) + List.foldl _ (256 * 0 + b) bs
    rw [ih]
    ring

theorem bytesToNatBE_natToBytesBE (n w : Nat) :
    bytesToNatBE (natToBytesBE n w) = w % 256 ^ n := by
  induction n generalizing w with
  | zero => simp [natToBytesBE, bytesToNatBE, Nat.mod_one]
  | succ n ih =>
    show (natToBytesBE n (w / 256) ++ [w % 256]).foldl _ 0 = _
    rw [List.foldl_append, bytesToNatBE_go]
    show (bytesToNatBE (natToBytesBE n (w / 256))) * 256 ^ _ + _ = _
    rw [ih]
    simp only [List.length_cons, List.length_nil, pow_one, bytesToNatBE,
      List.foldl_cons, List.foldl_nil, Nat.mul_zero, Nat.zero_add]
    have h1 : w / 256 % 256 ^ n = w % (256 * 256 ^ n) / 256 :=
      Nat.div_mod_eq_mod_mul_div w 256 (256 ^ n)
    have h2 : w % 256 = w % (256 * 256 ^ n) % 256 :=
      (Nat.mod_mod_of_dvd w (Dvd.intro _ rfl)).symm
    have h3 : 256 ^ (n + 1) = 256 * 256 ^ n := by ring
    rw [h1, h2, h3]
    omega

theorem parseByteChunks_flatten (bytes : List Nat)
    (h : ∀ b ∈ bytes, b < 256) :
    parseByteChunks bytes.length ((bytes.map (formatBin 8)).flatten)
      = some bytes := by
  induction bytes with
  | nil => rfl
  | cons b bs ih =>
    have hb : b < 256 := h b (by simp)
    have hlen : (formatBin 8 b).length = 8 :=
      formatBin_length 8 b (by norm_num) hb
    simp only [List.length_cons, List.map_cons, List.flatten_cons,
      parseByteChunks]
    rw [isEmpty_append_false _ _ (formatBin_ne_nil 8 b)]
    simp only [Bool.false_eq_true, if_false]
    rw [List.take_left' hlen, List.drop_left' hlen]
    rw [ih (fun x hx => h x (by simp [hx]))]
    show some _ = some _
    rw [bitsToNat_formatBin]

theorem bytesOfBitsAux_bitsOfBytes (fuel : Nat) (bits : List Bool)
    (hfuel : bits.length ≤ fuel) (h8 : bits.length % 8 = 0) :
    bitsOfBytes (bytesOfBitsAux fuel bits) = bits := by
  induction fuel generalizing bits with
  | zero =>
    have : bits = [] := List.length_eq_zero.mp (by omega)
    subst this; rfl
  | succ fuel ih =>
    by_cases hempty : bits.isEmpty
    · rw [List.isEmpty_iff] at hempty
      subst hempty; rfl
    · have hne : bits ≠ [] := by
        rw [List.isEmpty_iff] at hempty; exact hempty
      have hpos : 0 < bits.length := List.length_pos.mpr hne
      have h8le : 8 ≤ bits.length := by omega
      have htake : (bits.take 8).length = 8 := by
        rw [List.length_take]; omega
      simp only [bytesOfBitsAux, hempty, if_false, Bool.false_eq_true]
      show bitsOfBytes (_ :: _) = _
      unfold bitsOfBytes
      simp only [List.map_cons, List.flatten_cons]
      have hchunk : formatBin 8 (bitsToNat (bits.take 8)) = bits.take 8 := by
        have := formatBin_bitsToNat (bits.take 8)
          (by intro hc; rw [hc] at htake; simp at htake)
        rw [htake] at this
        exact this
      rw [hchunk]
      have hrest := ih (bits.drop 8) (by simp; omega)
        (by rw [List.length_drop]; omega)
      unfold bitsOfBytes at hrest
      rw [hrest, List.take_append_drop]

theorem bitsOfBytes_bytesOfBits (bits : List Bool)
    (h8 : bits.length % 8 = 0) :
    bitsOfBytes (bytesOfBits bits) = bits :=
  bytesOfBitsAux_bitsOfBytes bits.length bits le_rfl h8

theorem bytesOfBitsAux_length (fuel : Nat) (bits : List Bool)
    (hfuel : bits.length ≤ fuel) :
    (bytesOfBitsAux fuel bits).length = (bits.length + 7) / 8 := by
  induction fuel generalizing bits with
  | zero =>
    have : bits = [] := List.length_eq_zero.mp (by omega)
    subst this; rfl
  | succ fuel ih =>
    by_cases hempty : bits.isEmpty
    · rw [List.isEmpty_iff] at hempty
      subst hempty; rfl
    · have hne : bits ≠ [] := by
        rw [List.isEmpty_iff] at hempty; exact hempty
      have hpos : 0 < bits.length := List.length_pos.mpr hne
      simp only [bytesOfBitsAux, hempty, if_false, Bool.false_eq_true,
        List.length_cons]
      rw [ih (bits.drop 8) (by simp; omega)]
      rw [List.length_drop]
      rcases Nat.lt_or_ge bits.length 8 with hlt | hge
      · have h1 : bits.length - 8 = 0 := by omega
        rw [h1]
        have h2 : (bits.length + 7) / 8 = 1 := by omega
        rw [h2]
      · have h1 : bits.length - 8 + 7 + 8 = bits.length + 7 := by omega
        have h2 := Nat.add_div_right (bits.length - 8 + 7) (by norm_num : 0 < 8)
        omega

theorem bytesOfBits_length (bits : List Bool) :
    (bytesOfBits bits).length = (bits.length + 7) / 8 :=
  bytesOfBitsAux_length bits.length bits le_rfl

/-! ## Per-field round-trip lemmas -/

/-- Unfolding lemma: `_unpack_integer` with an LSB-first endianness first normalizes the
slice with `translate_endianness(bits, '>')`; this is definitional. -/
theorem unpack_integer_lt (ty : Char) (x : List Bool) :
    _unpack_integer ty x .lt
      = _unpack_integer ty (translate_endianness x .gt) .gt := rfl

theorem pack_unpack_integer_u (w m : Nat) (e : Endianness)
    (hw : 0 < w) (hm : m < 2 ^ w) :
    ∃ b, _pack_integer w (m : Int) e = some b ∧ b.length = w ∧
      _unpack_integer 'u' b e = some (m : Int) := by
  have hneg : ¬ ((m : Int) < 0) := by simp
  have harg : (if (m : Int) < 0 then (2 ^ w : Int) + m else (m : Int))
      = (m : Int) := by rw [if_neg hneg]
  have hbits : (if (m : Int) < 0 then (2 ^ w : Int) + m
      else (m : Int)).toNat = m := by rw [harg, Int.toNat_natCast]
  have hlen := formatBin_length w m hw hm
  have hne := formatBin_ne_nil w m
  have hgt : _unpack_integer 'u' (formatBin w m) .gt = some (m : Int) := by
    rw [unpack_integer_gt 'u' _ hne]
    simp [bitsToNat_formatBin]
  cases e with
  | gt =>
    refine ⟨formatBin w m, ?_, hlen, hgt⟩
    unfold _pack_integer
    simp only [harg, hneg, if_false, Int.toNat_natCast]
  | lt =>
    refine ⟨translate_endianness (formatBin w m) .lt, ?_, ?_, ?_⟩
    · unfold _pack_integer
      simp only [harg, hneg, if_false, Int.toNat_natCast]
    · rw [translate_length, hlen]
    · rw [unpack_integer_lt, translate_lt_gt, hgt]

theorem pack_unpack_integer_s (w : Nat) (n : Int) (e : Endianness)
    (hw : 0 < w) (hlo : -(2 ^ (w - 1) : Int) ≤ n)
    (hhi : n < (2 ^ (w - 1) : Int)) :
    ∃ b, _pack_integer w n e = some b ∧ b.length = w ∧
      _unpack_integer 's' b e = some n := by
  have hsplit : (2 : Nat) ^ w = 2 ^ (w - 1) * 2 := by
    rw [← pow_succ]; congr 1; omega
  have hcastw : ((2 ^ w : Nat) : Int) = 2 ^ w := by push_cast; ring
  have hcastw1 : ((2 ^ (w - 1) : Nat) : Int) = 2 ^ (w - 1) := by
    push_cast; ring
  set arg2 : Int := if n < 0 then (2 ^ w : Int) + n else n with harg2
  have harg2nn : 0 ≤ arg2 := by
    rw [harg2]
    split
    · have : ((2 ^ (w - 1) : Nat) : Int) ≤ (2 ^ w : Int) := by
        rw [← hcastw]
        exact_mod_cast Nat.pow_le_pow_right (by norm_num) (by omega)
      rw [hcastw1] at this
      omega
    · omega
  set m : Nat := arg2.toNat with hmdef
  have hcastm : (m : Int) = arg2 := Int.toNat_of_nonneg harg2nn
  have hIntSplit : (2 : Int) ^ w = 2 ^ (w - 1) * 2 := by
    rw [← hcastw, hsplit]; push_cast; ring
  have hm : m < 2 ^ w := by
    have h1 : (m : Int) < ((2 ^ w : Nat) : Int) := by
      rw [hcastm, hcastw, harg2]
      split
      · linarith
      · linarith
    exact_mod_cast h1
  have hlen := formatBin_length w m hw hm
  have hne := formatBin_ne_nil w m
  have hval : bitsToNat (formatBin w m) = m := bitsToNat_formatBin w m
  have hgt : _unpack_integer 's' (formatBin w m) .gt = some n := by
    rw [unpack_integer_gt 's' _ hne, hval, hlen]
    congr 1
    by_cases hn : n < 0
    · have hm2 : (m : Int) = 2 ^ w + n := by
        rw [hcastm, harg2, if_pos hn]
      have hcond : 2 ^ (w - 1) ≤ m := by
        have h3 : ((2 ^ (w - 1) : Nat) : Int) ≤ (m : Int) := by
          rw [hcastw1, hm2]
          linarith
        exact_mod_cast h3
      rw [if_pos ⟨rfl, hcond⟩, hm2]
      ring
    · have hm2 : (m : Int) = n := by
        rw [hcastm, harg2, if_neg hn]
      have hcond : ¬ (2 ^ (w - 1) ≤ m) := by
        intro hc
        have h3 : ((2 ^ (w - 1) : Nat) : Int) ≤ (m : Int) := by
          exact_mod_cast hc
        rw [hcastw1, hm2] at h3
        linarith
      rw [if_neg (fun hc => hcond hc.2), hm2]
  have hpack : _pack_integer w n e
      = some (match e with
              | .lt => translate_endianness (formatBin w m) .lt
              | .gt => formatBin w m) := by
    unfold _pack_integer
    rw [← harg2, if_neg (by omega)]
    simp only [← hmdef]
    rfl
  cases e with
  | gt => exact ⟨formatBin w m, hpack, hlen, hgt⟩
  | lt =>
    refine ⟨translate_endianness (formatBin w m) .lt, hpack, ?_, ?_⟩
    · rw [translate_length, hlen]
    · rw [unpack_integer_lt, translate_lt_gt, hgt]

theorem pack_unpack_boolean (w : Nat) (bl : Bool) (hw : 0 < w) :
    ∃ b, _pack_boolean w bl = some b ∧ b.length = w ∧
      _unpack_boolean b = some bl := by
  have hm : (if bl then 1 else 0) < 2 ^ w := by
    have : 2 ≤ 2 ^ w := by
      calc 2 = 2 ^ 1 := by norm_num
        _ ≤ 2 ^ w := Nat.pow_le_pow_right (by norm_num) (by omega)
    by_cases hbl : bl <;> simp [hbl] <;> omega
  obtain ⟨b, hp, hl, hu⟩ := pack_unpack_integer_u w (if bl then 1 else 0)
    .gt hw hm
  refine ⟨b, ?_, hl, ?_⟩
  · unfold _pack_boolean
    rw [← hp]
    by_cases hbl : bl <;> simp [hbl]
  · unfold _unpack_boolean
    rw [hu]
    by_cases hbl : bl <;> simp [hbl]

theorem flatten_formatBin_length (bytes : List Nat)
    (h : ∀ b ∈ bytes, b < 256) :
    ((bytes.map (formatBin 8)).flatten).length = 8 * bytes.length := by
  induction bytes with
  | nil => simp
  | cons b bs ih =>
    simp only [List.map_cons, List.flatten_cons, List.length_append,
      List.length_cons]
    rw [formatBin_length 8 b (by norm_num) (h b (by simp)),
      ih (fun x hx => h x (by simp [hx]))]
    ring

/-- Unfolding lemma: `_unpack_bytearray` with an MSB-first endianness, with the body
spelled out: this is definitional. -/
theorem unpack_bytearray_gt_def (size : Nat) (bits : List Bool) :
    _unpack_bytearray size bits .gt
      = (parseByteChunks (size / 8) bits).bind (fun whole =>
          if size % 8 > 0 then
            if (bits.drop (size - size % 8)).isEmpty then none
            else some (whole ++ [bitsToNat (bits.drop (size - size % 8))
              * 2 ^ (8 - size % 8)])
          else some whole) := rfl

/-- Unfolding lemma: `_unpack_bytearray` with an LSB-first endianness first translates the
slice with target `'<'`; this is definitional. -/
theorem unpack_bytearray_lt_def (size : Nat) (bits : List Bool) :
    _unpack_bytearray size bits .lt
      = _unpack_bytearray size (translate_endianness bits .lt) .gt := rfl

theorem unpack_bytearray_aligned_gt (size : Nat) (bytes : List Nat)
    (h : ∀ b ∈ bytes, b < 256) (h8 : size % 8 = 0)
    (hcount : size / 8 = bytes.length) :
    _unpack_bytearray size ((bytes.map (formatBin 8)).flatten) .gt
      = some bytes := by
  rw [unpack_bytearray_gt_def, hcount, parseByteChunks_flatten bytes h]
  simp [h8]

theorem pack_unpack_float (size w : Nat) (e : Endianness)
    (hsize : size = 32 ∨ size = 64) (hw : w < 2 ^ size) :
    ∃ b, _pack_float size w e = some b ∧ b.length = size ∧
      _unpack_float size b e = some w := by
  have h8 : size % 8 = 0 := by
    rcases hsize with h | h <;> subst h <;> norm_num
  have hpow : 256 ^ (size / 8) = 2 ^ size := by
    rcases hsize with h | h <;> subst h <;> norm_num
  have hd8 : 8 * (size / 8) = size := by omega
  have hlt0 : ∀ b ∈ natToBytesBE (size / 8) w, b < 256 :=
    natToBytesBE_lt _ _
  have hlen0 : (natToBytesBE (size / 8) w).length = size / 8 :=
    natToBytesBE_length _ _
  cases e with
  | gt =>
    have hflatlen :
        (((natToBytesBE (size / 8) w).map (formatBin 8)).flatten).length
          = size := by
      rw [flatten_formatBin_length _ hlt0, hlen0, hd8]
    have hpackarr : _pack_bytearray size (natToBytesBE (size / 8) w) .gt
        = ((natToBytesBE (size / 8) w).map (formatBin 8)).flatten := by
      unfold _pack_bytearray
      simp only []
      rw [List.take_of_length_le (le_of_eq hflatlen)]
    have hub := unpack_bytearray_aligned_gt size (natToBytesBE (size / 8) w)
      hlt0 h8 (by rw [hlen0])
    refine ⟨((natToBytesBE (size / 8) w).map (formatBin 8)).flatten,
      ?_, hflatlen, ?_⟩
    · unfold _pack_float
      rw [if_pos hsize]
      exact congrArg some hpackarr
    · unfold _unpack_float
      rw [hub]
      simp only [Option.bind_eq_bind, Option.some_bind, if_pos hsize,
        hlen0, if_pos rfl, if_true]
      rw [bytesToNatBE_natToBytesBE, hpow, Nat.mod_eq_of_lt hw]
  | lt =>
    have hltR : ∀ b ∈ (natToBytesBE (size / 8) w).reverse, b < 256 := by
      intro b hb
      exact hlt0 b (List.mem_reverse.mp hb)
    have hlenR : ((natToBytesBE (size / 8) w).reverse).length = size / 8 := by
      rw [List.length_reverse, hlen0]
    have hflatlen :
        ((((natToBytesBE (size / 8) w).reverse).map
          (formatBin 8)).flatten).length = size := by
      rw [flatten_formatBin_length _ hltR, hlenR, hd8]
    have hpackarr : _pack_bytearray size
        ((natToBytesBE (size / 8) w).reverse) .lt
        = translate_endianness
            ((((natToBytesBE (size / 8) w).reverse).map
              (formatBin 8)).flatten) .lt := by
      unfold _pack_bytearray
      simp only []
      rw [List.take_of_length_le (le_of_eq hflatlen)]
    have htrans : translate_endianness (translate_endianness
        ((((natToBytesBE (size / 8) w).reverse).map
          (formatBin 8)).flatten) .lt) .lt
        = (((natToBytesBE (size / 8) w).reverse).map
            (formatBin 8)).flatten :=
      translate_lt_lt _ (by rw [hflatlen]; exact h8)
    have hub : _unpack_bytearray size (translate_endianness
        ((((natToBytesBE (size / 8) w).reverse).map
          (formatBin 8)).flatten) .lt) .lt
        = some ((natToBytesBE (size / 8) w).reverse) := by
      rw [unpack_bytearray_lt_def, htrans]
      exact unpack_bytearray_aligned_gt size _ hltR h8 hlenR.symm
    refine ⟨translate_endianness
        ((((natToBytesBE (size / 8) w).reverse).map
          (formatBin 8)).flatten) .lt, ?_, ?_, ?_⟩
    · unfold _pack_float
      rw [if_pos hsize]
      exact congrArg some hpackarr
    · rw [translate_length, hflatlen]
    · unfold _unpack_float
      rw [hub]
      simp only [Option.bind_eq_bind, Option.some_bind, if_pos hsize,
        hlenR, if_pos rfl, if_true]
      rw [List.reverse_reverse, bytesToNatBE_natToBytesBE, hpow,
        Nat.mod_eq_of_lt hw]

/-! ## The round-trip property (claim C1) -/

/-- The per-field hypothesis of the round-trip claim: the field is one of
`'u'`/`'s'`/`'b'`/`'f'`, its width is positive (the descriptor grammar
requires a positive width), the matching value has the field's Python
type, and the value lies in the field's representable range (unsigned in
`[0, 2^w)`, signed in `[-2^(w-1), 2^(w-1))`, float width 32 or 64 with a
bit pattern below `2^w`). -/
def fitsField (t : Token) (v : Value) : Bool :=
  match t.ty, v with
  | 'u', .int n => decide (0 < t.size) && decide (0 ≤ n)
      && decide (n < (2 ^ t.size : Int))
  | 's', .int n => decide (0 < t.size)
      && decide (-(2 ^ (t.size - 1) : Int) ≤ n)
      && decide (n < (2 ^ (t.size - 1) : Int))
  | 'b', .bool _ => decide (0 < t.size)
  | 'f', .float w => (decide (t.size = 32) || decide (t.size = 64))
      && decide (w < 2 ^ t.size)
  | _, _ => false

/-- The hypothesis of the round-trip claim for a whole descriptor: one
value per field, each within range. -/
def roundFits : List Token → List Value → Bool
  | [], [] => true
  | t :: ts, v :: vs => fitsField t v && roundFits ts vs
  | _, _ => false

theorem field_round_trip (t : Token) (v : Value)
    (h : fitsField t v = true) :
    t.ty ≠ 'p' ∧ ∃ b, packFieldBits t v = some b ∧ b.length = t.size ∧
      unpackField t b = some v := by
  unfold fitsField at h
  split at h
  · -- unsigned
    rename_i n heq
    simp only [Bool.and_eq_true, decide_eq_true_eq] at h
    obtain ⟨⟨hw, hnn⟩, hlt⟩ := h
    obtain ⟨m, rfl⟩ : ∃ m : Nat, n = (m : Int) :=
      ⟨n.toNat, (Int.toNat_of_nonneg hnn).symm⟩
    have hmlt : m < 2 ^ t.size := by exact_mod_cast hlt
    obtain ⟨b, hp, hl, hu⟩ :=
      pack_unpack_integer_u t.size m t.endianness hw hmlt
    refine ⟨by rw [heq]; decide, b, ?_, hl, ?_⟩
    · unfold packFieldBits
      rw [heq]
      exact hp
    · unfold unpackField
      rw [heq, hu]
      rfl
  · -- signed
    rename_i n heq
    simp only [Bool.and_eq_true, decide_eq_true_eq] at h
    obtain ⟨⟨hw, hlo⟩, hhi⟩ := h
    obtain ⟨b, hp, hl, hu⟩ :=
      pack_unpack_integer_s t.size n t.endianness hw hlo hhi
    refine ⟨by rw [heq]; decide, b, ?_, hl, ?_⟩
    · unfold packFieldBits
      rw [heq]
      exact hp
    · unfold unpackField
      rw [heq, hu]
      rfl
  · -- boolean
    rename_i bl heq
    simp only [decide_eq_true_eq] at h
    obtain ⟨b, hp, hl, hu⟩ := pack_unpack_boolean t.size bl h
    refine ⟨by rw [heq]; decide, b, ?_, hl, ?_⟩
    · unfold packFieldBits
      rw [heq]
      exact hp
    · unfold unpackField
      rw [heq, hu]
      rfl
  · -- float
    rename_i w heq
    simp only [Bool.and_eq_true, Bool.or_eq_true, decide_eq_true_eq] at h
    obtain ⟨hsz, hlt⟩ := h
    obtain ⟨b, hp, hl, hu⟩ :=
      pack_unpack_float t.size w t.endianness hsz hlt
    refine ⟨by rw [heq]; decide, b, ?_, hl, ?_⟩
    · unfold packFieldBits
      rw [heq]
      exact hp
    · unfold unpackField
      rw [heq, hu]
      rfl
  · simp at h

theorem packBits_round_trip (toks : List Token) (vals : List Value)
    (h : roundFits toks vals = true) :
    ∃ bits, packBits toks vals = some bits ∧
      bits.length = calcsizeTokens toks ∧
      ∀ extra, unpackFields toks (bits ++ extra) = some vals := by
  induction toks generalizing vals with
  | nil =>
    cases vals with
    | nil => exact ⟨[], rfl, rfl, fun extra => rfl⟩
    | cons v vs => simp [roundFits] at h
  | cons t ts ih =>
    cases vals with
    | nil => simp [roundFits] at h
    | cons v vs =>
      have h2 : fitsField t v = true ∧ roundFits ts vs = true := by
        simpa [roundFits, Bool.and_eq_true] using h
      obtain ⟨hf, hrest⟩ := h2
      obtain ⟨hnp, b, hp, hl, hu⟩ := field_round_trip t v hf
      obtain ⟨bits, hpb, hlb, hub⟩ := ih vs hrest
      refine ⟨b ++ bits, ?_, ?_, ?_⟩
      · show (if t.ty = 'p' then _ else _) = _
        rw [if_neg hnp]
        show (packFieldBits t v).bind _ = _
        rw [hp]
        show (packBits ts vs).bind _ = _
        rw [hpb]
        rfl
      · simp only [List.length_append, hl, hlb, calcsizeTokens,
          List.map_cons, List.sum_cons]
      · intro extra
        show (if t.ty = 'p' then _ else _) = _
        rw [if_neg hnp]
        have htake : ((b ++ bits) ++ extra).take t.size = b := by
          rw [List.append_assoc, List.take_left' hl]
        have hdrop : ((b ++ bits) ++ extra).drop t.size = bits ++ extra := by
          rw [List.append_assoc, List.drop_left' hl]
        show (unpackField t (((b ++ bits) ++ extra).take t.size)).bind _ = _
        rw [htake, hdrop, hu]
        show (unpackFields ts (bits ++ extra)).bind _ = _
        rw [hub extra]
        rfl

/-- C1: for every descriptor containing only `'u'`, `'s'`, `'b'` and
`'f'` fields (each of positive width) and every tuple of values in which
each value lies within the corresponding field's representable range
(unsigned in `[0, 2^width)`, signed in `[-2^(width-1), 2^(width-1))`,
float width 32 or 64), `unpack(d, pack(d, *values))` succeeds and
returns exactly those values, in order.  Floats are represented by their
IEEE-754 bit patterns, which round-trip exactly (so the claim's
tolerance-based comparison also holds). -/
theorem pack_unpack_round_trip (toks : List Token) (vals : List Value)
    (h : roundFits toks vals = true) :
    ∃ bs, packTokens toks vals = some bs ∧
      unpackTokens toks bs = some vals := by
  obtain ⟨bits, hpb, hlen, hun⟩ := packBits_round_trip toks vals h
  by_cases h8 : bits.length % 8 = 0
  · refine ⟨bytesOfBits bits, ?_, ?_⟩
    · show (packBits toks vals).bind _ = _
      rw [hpb]
      show some (bytesOfBits (if bits.length % 8 ≠ 0 then _ else bits)) = _
      rw [if_neg (by omega)]
    · unfold unpackTokens
      rw [bitsOfBytes_bytesOfBits bits h8]
      have := hun []
      rwa [List.append_nil] at this
  · refine ⟨bytesOfBits (bits ++
      List.replicate (8 - bits.length % 8) false), ?_, ?_⟩
    · show (packBits toks vals).bind _ = _
      rw [hpb]
      show some (bytesOfBits (if bits.length % 8 ≠ 0 then
        bits ++ List.replicate (8 - bits.length % 8) false else bits)) = _
      rw [if_pos (by omega)]
    · unfold unpackTokens
      have hlen8 : (bits ++
          List.replicate (8 - bits.length % 8) false).length % 8 = 0 := by
        simp only [List.length_append, List.length_replicate]
        omega
      rw [bitsOfBytes_bytesOfBits _ hlen8]
      exact hun _

/-- Witness for `pack_unpack_round_trip`: a concrete descriptor with one
field of each of the four types and a concrete in-range value tuple. -/
theorem pack_unpack_round_trip_witness :
    roundFits [⟨'u', 3, .gt⟩, ⟨'s', 11, .lt⟩, ⟨'b', 2, .gt⟩,
        ⟨'f', 32, .lt⟩]
      [.int 5, .int (-1000), .bool true, .float 0x40490FD0] = true ∧
    ∃ bs, packTokens [⟨'u', 3, .gt⟩, ⟨'s', 11, .lt⟩, ⟨'b', 2, .gt⟩,
        ⟨'f', 32, .lt⟩]
        [.int 5, .int (-1000), .bool true, .float 0x40490FD0] = some bs ∧
      unpackTokens [⟨'u', 3, .gt⟩, ⟨'s', 11, .lt⟩, ⟨'b', 2, .gt⟩,
        ⟨'f', 32, .lt⟩] bs
        = some [.int 5, .int (-1000), .bool true, .float 0x40490FD0] :=
  ⟨by decide, pack_unpack_round_trip _ _ (by decide)⟩

/-! ## Claim C3 -/

/-- C3: `pack('u1u1s6u7u9', 0, 0, -2, 65, 22)` returns the three bytes
`0x3e 0x82 0x16`, and `unpack('u1u1s6u7u9', b'\x3e\x82\x16')` returns the
tuple `(0, 0, -2, 65, 22)`. -/
theorem pack_unpack_example :
    pack "u1u1s6u7u9" [.int 0, .int 0, .int (-2), .int 65, .int 22]
      = some [0x3e, 0x82, 0x16] ∧
    unpack "u1u1s6u7u9" [0x3e, 0x82, 0x16]
      = some [.int 0, .int 0, .int (-2), .int 65, .int 22] := by
  decide

/-! ## Claim C4: endianness resolution -/

theorem resolve_head (raw : List RawTok) (e : Endianness) (r : RawTok)
    (h : raw[0]? = some r) :
    (resolveTokens raw e)[0]? = some ⟨r.ty, r.width, r.mark.getD e⟩ := by
  cases raw with
  | nil => simp at h
  | cons t rest =>
    simp only [List.getElem?_cons_zero, Option.some.injEq] at h
    subst h
    simp [resolveTokens]

theorem resolve_marked (raw : List RawTok) (e : Endianness) (i : Nat)
    (r : RawTok) (m : Endianness) (h : raw[i]? = some r)
    (hm : r.mark = some m) :
    ((resolveTokens raw e)[i]?).map Token.endianness = some m := by
  induction raw generalizing i e with
  | nil => simp at h
  | cons t rest ih =>
    cases i with
    | zero =>
      simp only [List.getElem?_cons_zero, Option.some.injEq] at h
      subst h
      simp [resolveTokens, hm]
    | succ i =>
      simp only [List.getElem?_cons_succ] at h
      simp only [resolveTokens, List.getElem?_cons_succ]
      exact ih _ i h

theorem resolve_unmarked (raw : List RawTok) (e : Endianness) (i : Nat)
    (r : RawTok) (h : raw[i + 1]? = some r) (hm : r.mark = none) :
    ((resolveTokens raw e)[i + 1]?).map Token.endianness
      = ((resolveTokens raw e)[i]?).map Token.endianness := by
  induction raw generalizing i e with
  | nil => simp at h
  | cons t rest ih =>
    simp only [List.getElem?_cons_succ] at h
    cases i with
    | zero =>
      simp only [resolveTokens, List.getElem?_cons_succ,
        List.getElem?_cons_zero]
      rw [resolve_head rest _ r h, hm]
      simp
    | succ i =>
      simp only [resolveTokens, List.getElem?_cons_succ]
      exact ih _ i h

/-- C4: the format compiler resolves each field's endianness as follows:
a field with an explicit `'<'`/`'>'` marker gets that endianness, a
markerless field gets the endianness resolved for the immediately
preceding field, and a markerless first field gets MSB-first (`'>'`, the
initial accumulator); consequently the two descriptors
`'u1u1<s14<u17>u9<f32'` and `'u1u1<s14>u17>u9>f32'` pack the same value
tuple to different buffers. -/
theorem endianness_resolution :
    (∀ (raw : List RawTok) (e : Endianness) (i : Nat) (r : RawTok)
        (m : Endianness), raw[i]? = some r → r.mark = some m →
        ((resolveTokens raw e)[i]?).map Token.endianness = some m)
    ∧ (∀ (raw : List RawTok) (e : Endianness) (i : Nat) (r : RawTok),
        raw[i + 1]? = some r → r.mark = none →
        ((resolveTokens raw e)[i + 1]?).map Token.endianness
          = ((resolveTokens raw e)[i]?).map Token.endianness)
    ∧ (∀ (raw : List RawTok) (r : RawTok), raw[0]? = some r →
        r.mark = none →
        ((resolveTokens raw .gt)[0]?).map Token.endianness
          = some Endianness.gt)
    ∧ pack "u1u1<s14<u17>u9<f32"
        [.int 0, .int 0, .int (-2), .int 65, .int 22, .float 0x40490FD0]
      ≠ pack "u1u1<s14>u17>u9>f32"
        [.int 0, .int 0, .int (-2), .int 65, .int 22, .float 0x40490FD0] := by
  refine ⟨resolve_marked, resolve_unmarked, ?_, by decide⟩
  intro raw r h hm
  rw [resolve_head raw .gt r h, hm]
  rfl

/-- Witness for `endianness_resolution`: each of the three resolution
rules applied at a concrete raw token list. -/
theorem endianness_resolution_witness :
    ((resolveTokens [⟨some .lt, 'u', 5⟩, ⟨none, 's', 3⟩] .gt)[0]?).map
        Token.endianness = some Endianness.lt
    ∧ ((resolveTokens [⟨some .lt, 'u', 5⟩, ⟨none, 's', 3⟩] .gt)[0 + 1]?).map
        Token.endianness
      = ((resolveTokens [⟨some .lt, 'u', 5⟩, ⟨none, 's', 3⟩] .gt)[0]?).map
        Token.endianness
    ∧ ((resolveTokens [⟨none, 'u', 1⟩] .gt)[0]?).map Token.endianness
      = some Endianness.gt :=
  ⟨endianness_resolution.1 _ .gt 0 ⟨some .lt, 'u', 5⟩ .lt (by decide) rfl,
   endianness_resolution.2.1 _ .gt 0 ⟨none, 's', 3⟩ (by decide) rfl,
   endianness_resolution.2.2.1 _ ⟨none, 'u', 1⟩ (by decide) rfl⟩

/-! ## Claim C5: raw fields with a width not a multiple of 8 -/

theorem parseByteChunks_some (n : Nat) (bits : List Bool)
    (h : 8 * n ≤ bits.length) :
    ∃ l, parseByteChunks n bits = some l := by
  induction n generalizing bits with
  | zero => exact ⟨[], rfl⟩
  | succ n ih =>
    have hne : bits.isEmpty = false := by
      cases bits with
      | nil => simp at h
      | cons a l => rfl
    obtain ⟨l, hl⟩ := ih (bits.drop 8) (by simp; omega)
    refine ⟨bitsToNat (bits.take 8) :: l, ?_⟩
    simp only [parseByteChunks, hne, Bool.false_eq_true, if_false, hl]
    rfl

/-- C5: for a raw (`'r'`) field whose width is not a multiple of 8,
`_unpack_bytearray` emits the `size / 8` whole bytes and then one extra
final byte holding the trailing `size % 8` bits left-shifted by
`8 - size % 8` (high-order positions, zero-filled low bits); hence a
48-bit input packed into an `'r43'` field does not unpack to the
original bytes: the last five low-order bits come back zeroed. -/
theorem raw_unpack_tail_byte :
    (∀ (size : Nat) (bits : List Bool), size % 8 > 0 →
      bits.length = size →
      ∃ whole, parseByteChunks (size / 8) bits = some whole ∧
        _unpack_bytearray size bits .gt
          = some (whole ++ [bitsToNat (bits.drop (size - size % 8))
              * 2 ^ (8 - size % 8)]))
    ∧ (pack "r43" [.raw [0x00, 0xff, 0x00, 0xff, 0x00, 0xff]]
        = some [0x00, 0xff, 0x00, 0xff, 0x00, 0xe0]
      ∧ unpack "r43" [0x00, 0xff, 0x00, 0xff, 0x00, 0xe0]
        = some [.raw [0x00, 0xff, 0x00, 0xff, 0x00, 0xe0]]
      ∧ ([0x00, 0xff, 0x00, 0xff, 0x00, 0xe0] : List Nat)
        ≠ [0x00, 0xff, 0x00, 0xff, 0x00, 0xff]) := by
  constructor
  · intro size bits hmod hlen
    have hdiv : 8 * (size / 8) ≤ bits.length := by
      rw [hlen]
      have := Nat.mod_add_div size 8
      omega
    obtain ⟨whole, hw⟩ := parseByteChunks_some (size / 8) bits hdiv
    refine ⟨whole, hw, ?_⟩
    rw [unpack_bytearray_gt_def, hw]
    have htail : ((bits.drop (size - size % 8)).isEmpty) = false := by
      rcases hd : bits.drop (size - size % 8) with _ | ⟨a, l⟩
      · exfalso
        have hlen2 := congrArg List.length hd
        simp only [List.length_drop, List.length_nil, hlen] at hlen2
        omega
      · rfl
    simp only [Option.some_bind, if_pos hmod, htail, Bool.false_eq_true,
      if_false]
  · exact ⟨by decide, by decide, by decide⟩

/-- Witness for `raw_unpack_tail_byte`: the general tail-byte rule at a
3-bit slice, whose single output byte is `0b111 <<< 5 = 224`. -/
theorem raw_unpack_tail_byte_witness :
    ∃ whole, parseByteChunks (3 / 8) [true, true, true] = some whole ∧
      _unpack_bytearray 3 [true, true, true] .gt
        = some (whole ++ [bitsToNat ([true, true, true].drop (3 - 3 % 8))
            * 2 ^ (8 - 3 % 8)]) :=
  raw_unpack_tail_byte.1 3 [true, true, true] (by decide) (by decide)

/-! ## Claim C6: unrecognized type letters -/

/-- The six type letters the pack/unpack dispatch recognizes. -/
def recognizedType (c : Char) : Bool :=
  c = 'u' || c = 's' || c = 'f' || c = 'b' || c = 'r' || c = 'p'

theorem packFieldBits_unrecognized (t : Token) (v : Value)
    (h : recognizedType t.ty = false) : packFieldBits t v = none := by
  simp only [recognizedType, Bool.or_eq_false_iff, decide_eq_false_iff_not]
    at h
  obtain ⟨⟨⟨⟨⟨hu, hs⟩, hf⟩, hb⟩, hr⟩, hp⟩ := h
  unfold packFieldBits
  rw [if_neg (not_or.mpr ⟨hu, hs⟩), if_neg hf, if_neg hb, if_neg hr]

theorem unpackField_unrecognized (t : Token) (bits : List Bool)
    (h : recognizedType t.ty = false) : unpackField t bits = none := by
  simp only [recognizedType, Bool.or_eq_false_iff, decide_eq_false_iff_not]
    at h
  obtain ⟨⟨⟨⟨⟨hu, hs⟩, hf⟩, hb⟩, hr⟩, hp⟩ := h
  unfold unpackField
  rw [if_neg (not_or.mpr ⟨hu, hs⟩), if_neg hf, if_neg hb, if_neg hr]

theorem packBits_bad_type (toks : List Token) (vals : List Value)
    (h : ∃ t ∈ toks, recognizedType t.ty = false) :
    packBits toks vals = none := by
  induction toks generalizing vals with
  | nil => obtain ⟨t, ht, -⟩ := h; simp at ht
  | cons t ts ih =>
    obtain ⟨bad, hbad, hbadty⟩ := h
    by_cases hp : t.ty = 'p'
    · have hmem : bad ∈ ts := by
        rcases List.mem_cons.mp hbad with rfl | hmem
        · exfalso
          rw [hp] at hbadty
          simp [recognizedType] at hbadty
        · exact hmem
      show (if t.ty = 'p' then _ else _) = _
      rw [if_pos hp]
      show (packBits ts vals).bind _ = _
      rw [ih vals ⟨bad, hmem, hbadty⟩]
      rfl
    · show (if t.ty = 'p' then _ else _) = _
      rw [if_neg hp]
      cases vals with
      | nil => rfl
      | cons v vs =>
        rcases List.mem_cons.mp hbad with rfl | hmem
        · show (packFieldBits bad v).bind _ = _
          rw [packFieldBits_unrecognized bad v hbadty]
          rfl
        · show (packFieldBits t v).bind _ = _
          cases hpf : packFieldBits t v with
          | none => rfl
          | some b =>
            show (packBits ts vs).bind _ = _
            rw [ih vs ⟨bad, hmem, hbadty⟩]
            rfl

theorem unpackFields_bad_type (toks : List Token) (bits : List Bool)
    (h : ∃ t ∈ toks, recognizedType t.ty = false) :
    unpackFields toks bits = none := by
  induction toks generalizing bits with
  | nil => obtain ⟨t, ht, -⟩ := h; simp at ht
  | cons t ts ih =>
    obtain ⟨bad, hbad, hbadty⟩ := h
    by_cases hp : t.ty = 'p'
    · have hmem : bad ∈ ts := by
        rcases List.mem_cons.mp hbad with rfl | hmem
        · exfalso
          rw [hp] at hbadty
          simp [recognizedType] at hbadty
        · exact hmem
      show (if t.ty = 'p' then _ else _) = _
      rw [if_pos hp]
      exact ih _ ⟨bad, hmem, hbadty⟩
    · show (if t.ty = 'p' then _ else _) = _
      rw [if_neg hp]
      rcases List.mem_cons.mp hbad with rfl | hmem
      · show (unpackField bad _).bind _ = _
        rw [unpackField_unrecognized bad _ hbadty]
        rfl
      · show (unpackField t _).bind _ = _
        cases huf : unpackField t (bits.take t.size) with
        | none => rfl
        | some v =>
          show (unpackFields ts _).bind _ = _
          rw [ih _ ⟨bad, hmem, hbadty⟩]
          rfl

/-- C6 counterexample: the descriptor `"x5"` contains the type letter
`'x'`, which is not in `{u,s,f,b,r,p}`, yet it compiles without any
error to the field list `[('x', 5, '>')]`, and `calcsize` silently
accepts it, returning 5. -/
theorem compile_accepts_bad_letter :
    _parse_format "x5" = [⟨'x', 5, Endianness.gt⟩]
      ∧ calcsize "x5" = 5 := by decide

/-- C6 amended: compiling a descriptor never fails — the regex-based
parser silently skips malformed tokens and accepts any ASCII letter with
any decimal width (including zero).  A compiled field whose type letter
is not one of `{u,s,f,b,r,p}` is rejected (`ValueError`) by `pack` and
`unpack` when the field is reached, but `calcsize` silently accepts such
descriptors (e.g. `calcsize("x5") = 5`), as it also accepts zero-width
tokens such as `"u0"`. -/
theorem bad_type_rejected_at_pack_only :
    (∀ (toks : List Token) (vals : List Value),
      (∃ t ∈ toks, recognizedType t.ty = false) →
      packTokens toks vals = none)
    ∧ (∀ (toks : List Token) (data : List Nat),
      (∃ t ∈ toks, recognizedType t.ty = false) →
      unpackTokens toks data = none)
    ∧ _parse_format "x5" = [⟨'x', 5, Endianness.gt⟩]
    ∧ calcsize "x5" = 5
    ∧ _parse_format "u0" = [⟨'u', 0, Endianness.gt⟩]
    ∧ calcsize "u0" = 0 := by
  refine ⟨?_, ?_, by decide, by decide, by decide, by decide⟩
  · intro toks vals h
    show (packBits toks vals).bind _ = _
    rw [packBits_bad_type toks vals h]
    rfl
  · intro toks data h
    exact unpackFields_bad_type toks _ h

/-- Witness for `bad_type_rejected_at_pack_only`: the compiled field
list of `"x5"` makes both `pack` and `unpack` fail. -/
theorem bad_type_rejected_at_pack_only_witness :
    packTokens [⟨'x', 5, Endianness.gt⟩] [.int 0] = none
    ∧ unpackTokens [⟨'x', 5, Endianness.gt⟩] [0xff] = none :=
  ⟨bad_type_rejected_at_pack_only.1 _ _
      ⟨⟨'x', 5, Endianness.gt⟩, by decide, by decide⟩,
   bad_type_rejected_at_pack_only.2.1 _ _
      ⟨⟨'x', 5, Endianness.gt⟩, by decide, by decide⟩⟩

/-! ## Claim C7: negative values for unsigned fields -/

/-- C7 counterexample: `pack('u5', -1)` is not rejected by any range
check; it encodes the two's-complement bits `11111` and returns the
single byte `0xf8` (the repository's own test packs `-1` into `u5`). -/
theorem pack_negative_unsigned_encodes :
    pack "u5" [.int (-1)] = some [0xf8] := by decide

/-- C7 amended: packing a negative value into a `'u'` field is not
rejected — `_pack_integer` adds `1 <<< width` to any negative argument
(for `'u'` exactly as for `'s'`), so packing `v ∈ [-2^w, 0)` produces
the same bit string as packing the in-range value `v + 2^w`. -/
theorem pack_unsigned_negative_wraps (w : Nat) (n : Int) (e : Endianness)
    (hneg : n < 0) (hlo : -(2 ^ w : Int) ≤ n) :
    _pack_integer w n e = _pack_integer w (n + 2 ^ w) e := by
  unfold _pack_integer
  simp only []
  have h1 : ¬ ((2 : Int) ^ w + n < 0) := not_lt.mpr (by linarith)
  have h2 : ¬ (n + (2 : Int) ^ w < 0) := not_lt.mpr (by linarith)
  rw [if_pos hneg]
  simp [h1, h2, show (2 : Int) ^ w + n = n + 2 ^ w from by ring]

/-- Witness for `pack_unsigned_negative_wraps`: packing `-1` in a `u5`
field equals packing `31`. -/
theorem pack_unsigned_negative_wraps_witness :
    _pack_integer 5 (-1) .gt = _pack_integer 5 (-1 + 2 ^ 5) .gt :=
  pack_unsigned_negative_wraps 5 (-1) .gt (by decide) (by decide)

/-! ## Claim C8: calcsize versus packed buffer length -/

theorem pack_integer_width (w : Nat) (n : Int) (e : Endianness)
    (hw : 0 < w) (hlo : -(2 ^ w : Int) ≤ n) (hhi : n < (2 ^ w : Int)) :
    ∃ b, _pack_integer w n e = some b ∧ b.length = w := by
  have hcastw : ((2 ^ w : Nat) : Int) = 2 ^ w := by push_cast; ring
  set arg2 : Int := if n < 0 then (2 ^ w : Int) + n else n with harg2
  have harg2nn : 0 ≤ arg2 := by
    rw [harg2]; split <;> linarith
  have harg2lt : arg2 < (2 ^ w : Int) := by
    rw [harg2]; split <;> linarith
  set m : Nat := arg2.toNat with hmdef
  have hcastm : (m : Int) = arg2 := Int.toNat_of_nonneg harg2nn
  have hm : m < 2 ^ w := by
    have h1 : (m : Int) < ((2 ^ w : Nat) : Int) := by
      rw [hcastm, hcastw]; exact harg2lt
    exact_mod_cast h1
  have hlen := formatBin_length w m hw hm
  have hpack : _pack_integer w n e
      = some (match e with
              | .lt => translate_endianness (formatBin w m) .lt
              | .gt => formatBin w m) := by
    unfold _pack_integer
    rw [← harg2, if_neg (by omega)]
    simp only [← hmdef]
    rfl
  cases e with
  | gt => exact ⟨formatBin w m, hpack, hlen⟩
  | lt =>
    refine ⟨translate_endianness (formatBin w m) .lt, hpack, ?_⟩
    rw [translate_length, hlen]

theorem pack_float_width (size w : Nat) (e : Endianness)
    (hsize : size = 32 ∨ size = 64) :
    ∃ b, _pack_float size w e = some b ∧ b.length = size := by
  have hd8 : 8 * (size / 8) = size := by
    rcases hsize with h | h <;> subst h <;> norm_num
  have hlt0 : ∀ b ∈ natToBytesBE (size / 8) w, b < 256 :=
    natToBytesBE_lt _ _
  have hlen0 : (natToBytesBE (size / 8) w).length = size / 8 :=
    natToBytesBE_length _ _
  cases e with
  | gt =>
    have hflatlen :
        (((natToBytesBE (size / 8) w).map (formatBin 8)).flatten).length
          = size := by
      rw [flatten_formatBin_length _ hlt0, hlen0, hd8]
    refine ⟨((natToBytesBE (size / 8) w).map (formatBin 8)).flatten,
      ?_, hflatlen⟩
    unfold _pack_float
    rw [if_pos hsize]
    refine congrArg some ?_
    unfold _pack_bytearray
    simp only []
    rw [List.take_of_length_le (le_of_eq hflatlen)]
  | lt =>
    have hltR : ∀ b ∈ (natToBytesBE (size / 8) w).reverse, b < 256 :=
      fun b hb => hlt0 b (List.mem_reverse.mp hb)
    have hlenR : ((natToBytesBE (size / 8) w).reverse).length
        = size / 8 := by rw [List.length_reverse, hlen0]
    have hflatlen :
        ((((natToBytesBE (size / 8) w).reverse).map
          (formatBin 8)).flatten).length = size := by
      rw [flatten_formatBin_length _ hltR, hlenR, hd8]
    refine ⟨translate_endianness
        ((((natToBytesBE (size / 8) w).reverse).map
          (formatBin 8)).flatten) .lt, ?_, ?_⟩
    · unfold _pack_float
      rw [if_pos hsize]
      refine congrArg some ?_
      unfold _pack_bytearray
      simp only []
      rw [List.take_of_length_le (le_of_eq hflatlen)]
    · rw [translate_length, hflatlen]

theorem pack_bytearray_width (size : Nat) (bs : List Nat) (e : Endianness)
    (hbytes : ∀ b ∈ bs, b < 256) (hsz : size ≤ 8 * bs.length) :
    (_pack_bytearray size bs e).length = size := by
  have hflat : ((bs.map (formatBin 8)).flatten).length = 8 * bs.length :=
    flatten_formatBin_length bs hbytes
  have htake : (((bs.map (formatBin 8)).flatten).take size).length
      = size := by
    rw [List.length_take, hflat]
    omega
  cases e with
  | gt => exact htake
  | lt =>
    show (translate_endianness (((bs.map (formatBin 8)).flatten).take size)
      .lt).length = size
    rw [translate_length]
    exact htake

/-- The per-field condition under which the encoding emits exactly
`width` bits: integer-valued fields (`'u'`, `'s'`, and `'b'` given an
`int`) need `0 < w` and a value in `[-2^w, 2^w)` (after the
two's-complement shift the rendered digits then fit in `w` columns);
boolean-valued fields need `0 < w`; floats need width 32 or 64; raw
fields need at least `width` bits of byte data with every byte below
256. -/
def fieldEmitsWidth (t : Token) (v : Value) : Bool :=
  match t.ty, v with
  | 'u', .int n => decide (0 < t.size) && decide (-(2 ^ t.size : Int) ≤ n)
      && decide (n < (2 ^ t.size : Int))
  | 's', .int n => decide (0 < t.size) && decide (-(2 ^ t.size : Int) ≤ n)
      && decide (n < (2 ^ t.size : Int))
  | 'b', .int n => decide (0 < t.size) && decide (-(2 ^ t.size : Int) ≤ n)
      && decide (n < (2 ^ t.size : Int))
  | 'u', .bool _ => decide (0 < t.size)
  | 's', .bool _ => decide (0 < t.size)
  | 'b', .bool _ => decide (0 < t.size)
  | 'f', .float _ => decide (t.size = 32) || decide (t.size = 64)
  | 'r', .raw bs => bs.all (fun b => decide (b < 256))
      && decide (t.size ≤ 8 * bs.length)
  | _, _ => false

theorem bool_arg_bounds (w : Nat) (hw : 0 < w) (bl : Bool) :
    -((2 : Int) ^ w) ≤ (if bl then (1 : Int) else 0)
      ∧ (if bl then (1 : Int) else 0) < (2 : Int) ^ w := by
  have h1 : (0 : Int) < 2 ^ w := by positivity
  have h2 : (2 : Int) ≤ 2 ^ w := by
    calc (2 : Int) = 2 ^ 1 := by norm_num
      _ ≤ 2 ^ w := pow_le_pow_right (by norm_num) (by omega)
  by_cases hbl : bl <;> simp [hbl] <;> constructor <;> linarith

theorem packFieldBits_width (t : Token) (v : Value)
    (h : fieldEmitsWidth t v = true) :
    t.ty ≠ 'p' ∧ ∃ b, packFieldBits t v = some b ∧ b.length = t.size := by
  unfold fieldEmitsWidth at h
  split at h
  · -- u, int
    rename_i n heq
    simp only [Bool.and_eq_true, decide_eq_true_eq] at h
    obtain ⟨⟨hw, hlo⟩, hhi⟩ := h
    obtain ⟨b, hp, hl⟩ := pack_integer_width t.size n t.endianness hw hlo hhi
    refine ⟨by rw [heq]; decide, b, ?_, hl⟩
    unfold packFieldBits
    rw [heq]
    exact hp
  · -- s, int
    rename_i n heq
    simp only [Bool.and_eq_true, decide_eq_true_eq] at h
    obtain ⟨⟨hw, hlo⟩, hhi⟩ := h
    obtain ⟨b, hp, hl⟩ := pack_integer_width t.size n t.endianness hw hlo hhi
    refine ⟨by rw [heq]; decide, b, ?_, hl⟩
    unfold packFieldBits
    rw [heq]
    exact hp
  · -- b, int
    rename_i n heq
    simp only [Bool.and_eq_true, decide_eq_true_eq] at h
    obtain ⟨⟨hw, hlo⟩, hhi⟩ := h
    obtain ⟨b, hp, hl⟩ := pack_integer_width t.size n .gt hw hlo hhi
    refine ⟨by rw [heq]; decide, b, ?_, hl⟩
    unfold packFieldBits
    rw [heq]
    exact hp
  · -- u, bool
    rename_i bl heq
    simp only [decide_eq_true_eq] at h
    obtain ⟨hlo, hhi⟩ := bool_arg_bounds t.size h bl
    obtain ⟨b, hp, hl⟩ := pack_integer_width t.size
      (if bl then 1 else 0) t.endianness h hlo hhi
    refine ⟨by rw [heq]; decide, b, ?_, hl⟩
    unfold packFieldBits
    rw [heq]
    exact hp
  · -- s, bool
    rename_i bl heq
    simp only [decide_eq_true_eq] at h
    obtain ⟨hlo, hhi⟩ := bool_arg_bounds t.size h bl
    obtain ⟨b, hp, hl⟩ := pack_integer_width t.size
      (if bl then 1 else 0) t.endianness h hlo hhi
    refine ⟨by rw [heq]; decide, b, ?_, hl⟩
    unfold packFieldBits
    rw [heq]
    exact hp
  · -- b, bool
    rename_i bl heq
    simp only [decide_eq_true_eq] at h
    obtain ⟨hlo, hhi⟩ := bool_arg_bounds t.size h bl
    obtain ⟨b, hp, hl⟩ := pack_integer_width t.size
      (if bl then 1 else 0) .gt h hlo hhi
    refine ⟨by rw [heq]; decide, b, ?_, hl⟩
    unfold packFieldBits
    rw [heq]
    show _pack_boolean t.size bl = some b
    unfold _pack_boolean
    exact hp
  · -- f, float
    rename_i w heq
    simp only [Bool.or_eq_true, decide_eq_true_eq] at h
    obtain ⟨b, hp, hl⟩ := pack_float_width t.size w t.endianness h
    refine ⟨by rw [heq]; decide, b, ?_, hl⟩
    unfold packFieldBits
    rw [heq]
    exact hp
  · -- r, raw
    rename_i bs heq
    simp only [Bool.and_eq_true, List.all_eq_true, decide_eq_true_eq] at h
    obtain ⟨hbytes, hsz⟩ := h
    have hl := pack_bytearray_width t.size bs t.endianness hbytes hsz
    refine ⟨by rw [heq]; decide, _pack_bytearray t.size bs t.endianness,
      ?_, hl⟩
    unfold packFieldBits
    rw [heq]
    rfl
  · simp at h

/-- The whole-tuple condition: padding fields are skipped, every other
field consumes the next value and must satisfy `fieldEmitsWidth`;
surplus values are allowed (Python's `pack` ignores extra arguments). -/
def widthsFit : List Token → List Value → Bool
  | [], _ => true
  | t :: ts, vals =>
    if t.ty = 'p' then widthsFit ts vals
    else match vals with
      | [] => false
      | v :: vs => fieldEmitsWidth t v && widthsFit ts vs

theorem packBits_width (toks : List Token) (vals : List Value)
    (h : widthsFit toks vals = true) :
    ∃ bits, packBits toks vals = some bits ∧
      bits.length = calcsizeTokens toks := by
  induction toks generalizing vals with
  | nil => exact ⟨[], rfl, rfl⟩
  | cons t ts ih =>
    by_cases hp : t.ty = 'p'
    · have h2 : widthsFit ts vals = true := by
        unfold widthsFit at h
        rwa [if_pos hp] at h
      obtain ⟨bits, hpb, hlb⟩ := ih vals h2
      refine ⟨List.replicate t.size false ++ bits, ?_, ?_⟩
      · show (if t.ty = 'p' then _ else _) = _
        rw [if_pos hp]
        show (packBits ts vals).bind _ = _
        rw [hpb]
        rfl
      · simp [hlb, calcsizeTokens]
    · cases vals with
      | nil =>
        exfalso
        unfold widthsFit at h
        rw [if_neg hp] at h
        simp at h
      | cons v vs =>
        have h2 : fieldEmitsWidth t v = true ∧ widthsFit ts vs = true := by
          unfold widthsFit at h
          rw [if_neg hp] at h
          simpa [Bool.and_eq_true] using h
        obtain ⟨hf, hrest⟩ := h2
        obtain ⟨-, b, hpf, hl⟩ := packFieldBits_width t v hf
        obtain ⟨bits, hpb, hlb⟩ := ih vs hrest
        refine ⟨b ++ bits, ?_, ?_⟩
        · show (if t.ty = 'p' then _ else _) = _
          rw [if_neg hp]
          show (packFieldBits t v).bind _ = _
          rw [hpf]
          show (packBits ts vs).bind _ = _
          rw [hpb]
          rfl
        · simp [List.length_append, hl, hlb, calcsizeTokens]

/-- C8 counterexample: the out-of-range value 256 is accepted by `pack`
for a `u8` field without any error, producing a 2-byte buffer although
`ceil(calcsize('u8') / 8) = 1`: the claimed length equation fails for a
value tuple accepted by `pack`. -/
theorem calcsize_pack_length_counterexample :
    pack "u8" [.int 256] = some [128, 0]
      ∧ ([128, 0] : List Nat).length ≠ (calcsize "u8" + 7) / 8 := by
  decide

/-- C8 amended: `calcsize` is the sum of all compiled field widths,
padding included; and for every value tuple accepted by `pack` in which
every integer value lies in the field's two's-complement range
`[-2^w, 2^w)` (widths positive), every float width is 32 or 64, and
every raw value supplies at least `width` bits of bytes, the packed
buffer's byte length equals `ceil(calcsize / 8)`.  (Out-of-range values
are not rejected — see the counterexample — they silently lengthen the
buffer.) -/
theorem calcsize_pack_length :
    (∀ fmt : String,
      calcsize fmt = ((_parse_format fmt).map Token.size).sum)
    ∧ (∀ (toks : List Token) (vals : List Value),
      widthsFit toks vals = true →
      ∃ bs, packTokens toks vals = some bs ∧
        bs.length = (calcsizeTokens toks + 7) / 8) := by
  refine ⟨fun fmt => rfl, ?_⟩
  intro toks vals h
  obtain ⟨bits, hpb, hlb⟩ := packBits_width toks vals h
  by_cases h8 : bits.length % 8 = 0
  · refine ⟨bytesOfBits bits, ?_, ?_⟩
    · show (packBits toks vals).bind _ = _
      rw [hpb]
      show some (bytesOfBits (if bits.length % 8 ≠ 0 then _ else bits)) = _
      rw [if_neg (by omega)]
    · rw [bytesOfBits_length, hlb]
  · refine ⟨bytesOfBits (bits ++
        List.replicate (8 - bits.length % 8) false), ?_, ?_⟩
    · show (packBits toks vals).bind _ = _
      rw [hpb]
      show some (bytesOfBits (if bits.length % 8 ≠ 0 then
        bits ++ List.replicate (8 - bits.length % 8) false else bits)) = _
      rw [if_pos (by omega)]
    · rw [bytesOfBits_length]
      simp only [List.length_append, List.length_replicate]
      rw [← hlb]
      omega

/-- Witness for `calcsize_pack_length`: a descriptor mixing `u`, `p` and
`r` fields; 15 bits pack into `(15 + 7) / 8 = 2` bytes. -/
theorem calcsize_pack_length_witness :
    calcsize "u8p4" = ((_parse_format "u8p4").map Token.size).sum
    ∧ widthsFit [⟨'u', 3, .gt⟩, ⟨'p', 7, .gt⟩, ⟨'r', 5, .gt⟩]
        [.int 5, .raw [0xab]] = true
    ∧ ∃ bs, packTokens [⟨'u', 3, .gt⟩, ⟨'p', 7, .gt⟩, ⟨'r', 5, .gt⟩]
        [.int 5, .raw [0xab]] = some bs ∧
        bs.length = (calcsizeTokens [⟨'u', 3, .gt⟩, ⟨'p', 7, .gt⟩,
          ⟨'r', 5, .gt⟩] + 7) / 8 :=
  ⟨calcsize_pack_length.1 "u8p4", by decide,
   calcsize_pack_length.2 _ _ (by decide)⟩

/-! ## Claim C9: byteswap -/

/-- The functional reading of the `byteswap` loop: reverse each
consecutive group in turn, leaving bytes beyond the groups untouched. -/
def swapGroups : List Nat → List Nat → List Nat
  | [], data => data
  | d :: ds, data => ((data.take d).reverse) ++ swapGroups ds (data.drop d)

theorem byteswapNums_take_drop (ds : List Nat) (data : List Nat)
    (offset : Nat) (h : offset + ds.sum ≤ data.length) :
    byteswapNums ds data offset
      = data.take offset ++ swapGroups ds (data.drop offset) := by
  induction ds generalizing data offset with
  | nil => simp [byteswapNums, swapGroups]
  | cons d ds ih =>
    simp only [List.sum_cons] at h
    have hoff : offset ≤ data.length := by omega
    have hseg : (((data.drop offset).take d).reverse).length = d := by
      rw [List.length_reverse, List.length_take, List.length_drop]
      omega
    have htakeoff : (data.take offset).length = offset := by
      rw [List.length_take]
      omega
    have hfront : ((data.take offset
        ++ ((data.drop offset).take d).reverse)).length = offset + d := by
      rw [List.length_append, hseg, htakeoff]
    show byteswapNums ds (data.take offset
        ++ ((data.drop offset).take d).reverse
        ++ data.drop (offset + d)) (offset + d) = _
    have hlen2 : (data.take offset ++ ((data.drop offset).take d).reverse
        ++ data.drop (offset + d)).length = data.length := by
      simp only [List.length_append, hseg, htakeoff, List.length_drop]
      omega
    rw [ih _ (offset + d) (by rw [hlen2]; omega)]
    rw [List.take_left' hfront, List.drop_left' hfront]
    show (data.take offset ++ ((data.drop offset).take d).reverse)
        ++ swapGroups ds (data.drop (offset + d))
      = data.take offset ++ (((data.drop offset).take d).reverse
        ++ swapGroups ds ((data.drop offset).drop d))
    rw [List.drop_drop, List.append_assoc]

/-- C9: `byteswap` reverses, in place, each consecutive group of bytes
whose lengths are the decimal digits of its format string, advancing
from the given offset and leaving the remainder untouched; and the
concrete scenario: byte-swapping the buffer of
`pack('u1u5u2u16', 1, 2, 3, 4)` with format `'12'` and unpacking the
result yields `(1, 2, 3, 1024)`. -/
theorem byteswap_groups :
    (∀ (ds : List Nat) (data : List Nat) (offset : Nat),
      offset + ds.sum ≤ data.length →
      byteswapNums ds data offset
        = data.take offset ++ swapGroups ds (data.drop offset))
    ∧ pack "u1u5u2u16" [.int 1, .int 2, .int 3, .int 4]
        = some [0x8b, 0x00, 0x04]
    ∧ byteswap "12" [0x8b, 0x00, 0x04] = some [0x8b, 0x04, 0x00]
    ∧ unpack "u1u5u2u16" [0x8b, 0x04, 0x00]
        = some [.int 1, .int 2, .int 3, .int 1024] :=
  ⟨byteswapNums_take_drop, by decide, by decide, by decide⟩

/-- Witness for `byteswap_groups`: the loop characterization applied at
a concrete group list, buffer and offset. -/
theorem byteswap_groups_witness :
    byteswapNums [2] [10, 20, 30] 1
      = [10, 20, 30].take 1 ++ swapGroups [2] ([10, 20, 30].drop 1) :=
  byteswap_groups.1 [2] [10, 20, 30] 1 (by decide)

/-! ## Claim C10: unpack reads only the first calcsize bits -/

theorem unpackFields_take_eq (toks : List Token) (r1 r2 : List Bool)
    (h : r1.take (calcsizeTokens toks) = r2.take (calcsizeTokens toks)) :
    unpackFields toks r1 = unpackFields toks r2 := by
  induction toks generalizing r1 r2 with
  | nil => rfl
  | cons t ts ih =>
    have hsum : calcsizeTokens (t :: ts)
        = t.size + calcsizeTokens ts := by
      simp [calcsizeTokens]
    rw [hsum] at h
    have htake : r1.take t.size = r2.take t.size := by
      have h2 := congrArg (List.take t.size) h
      rwa [List.take_take, List.take_take,
        min_eq_left (by omega : t.size ≤ t.size + calcsizeTokens ts)]
        at h2
    have hdrop : (r1.drop t.size).take (calcsizeTokens ts)
        = (r2.drop t.size).take (calcsizeTokens ts) := by
      have h2 := congrArg (List.drop t.size) h
      rwa [List.drop_take, List.drop_take, Nat.add_sub_cancel_left] at h2
    by_cases hp : t.ty = 'p'
    · show (if t.ty = 'p' then _ else _) = (if t.ty = 'p' then _ else _)
      rw [if_pos hp, if_pos hp]
      exact ih _ _ hdrop
    · show (if t.ty = 'p' then _ else _) = (if t.ty = 'p' then _ else _)
      rw [if_neg hp, if_neg hp]
      show (unpackField t (r1.take t.size)).bind _
        = (unpackField t (r2.take t.size)).bind _
      rw [htake]
      simp only [ih _ _ hdrop]

/-- C10: for every descriptor and every two input buffers that agree on
their first `calcsize(d)` bits (each having at least
`ceil(calcsize(d) / 8)` bytes), `unpack` returns the same result for
both: bytes or bits beyond the first `calcsize(d)` bits never influence
any unpacked value. -/
theorem unpack_prefix_determined (fmt : String) (b1 b2 : List Nat)
    (hagree : (bitsOfBytes b1).take (calcsize fmt)
      = (bitsOfBytes b2).take (calcsize fmt))
    (hlen1 : (calcsize fmt + 7) / 8 ≤ b1.length)
    (hlen2 : (calcsize fmt + 7) / 8 ≤ b2.length) :
    unpack fmt b1 = unpack fmt b2 :=
  unpackFields_take_eq (_parse_format fmt) _ _ hagree

/-- Witness for `unpack_prefix_determined`: two buffers agreeing on the
first 4 bits but nowhere else unpack identically under `"u4"`. -/
theorem unpack_prefix_determined_witness :
    unpack "u4" [0x12] = unpack "u4" [0x1f, 0xaa] :=
  unpack_prefix_determined "u4" [0x12] [0x1f, 0xaa] (by decide)
    (by decide) (by decide)

end Bitstruct
